import Mathlib

/-!
Verification of a C Base64 encoder (src/encoder.c) via a shallow embedding.

The program is a MIME-style Base64 encoder:
  - `base64_table` is the 64-character symbol table;
  - `base64_encode_block` turns 1..3 input bytes into a 4-character buffer
    (symbols plus '=' padding), writing into a caller-supplied buffer;
  - `base64_encode` is the stream driver: it reads 3-byte blocks, emits the
    encoded characters of each block through fprintf("%s", buf), and writes a
    CRLF after every pass over up to 19 blocks (including the final pass in
    which the read returned 0 bytes).

Machine integers are modelled as Nat: every intermediate value in the C code
is bounded by 2^24 < 2^32, so uint32_t arithmetic never wraps and Nat agrees
with it exactly.  Input streams and output sinks are modelled as lists; a
fread of up to 3 bytes is List.take 3 / List.drop 3.
-/

set_option maxHeartbeats 1000000

namespace Encoder

/-- The NUL character; buf_out in the C driver is initialised to five NUL
bytes by the initializer and fprintf("%s", ...) stops at the first NUL. -/
def nul : Char := Char.ofNat 0

/-- Output of fprintf(out, "%s", buf): the characters of the buffer up to
(not including) the first NUL. -/
def cString (l : List Char) : List Char := l.takeWhile (fun c => c ≠ nul)

/-- The symbol table, line 20 of encoder.c:
const char base64_table[] = "ABC...xyz0123456789+/". -/
def base64_table : List Char :=
  "ABCDEFGHIJKLMNOPQRSTUVWXYZabcdefghijklmnopqrstuvwxyz0123456789+/".toList

/-- Reading base64_table[i]: in-bounds C indexing.  The default value '?' is
the embedding's out-of-range branch; it is proved unreachable (claim C9). -/
def tbl (i : Nat) : Char := base64_table.getD i '?'

/-- Stage 1 of base64_encode_block (lines 104-109): pack the input bytes into
a 24-bit field by ORs of left-shifted bytes, byte 0 at the most significant
position: buf |= buf_in[i] << (8 * (3-i-1)). -/
def packFold (buf_in : List Nat) : Nat :=
  (List.range buf_in.length).foldl
    (fun b i => b ||| ((buf_in.getD i 0) <<< (8 * (3 - i - 1)))) 0

/-- Embedding of base64_encode_block (lines 86-121).  buf_out is the caller's
buffer (five characters in the driver), buf_in the input block of len_in
bytes.  Stage 1 packs the bytes (packFold), stage 2 writes len_out symbol
characters using the loop-carried mask msk = (0x3F << (3*6)) >> (6*i), and
stage 2.5 writes '=' padding at positions len_out..3. -/
def base64_encode_block (buf_out : List Char) (buf_in : List Nat) : List Char :=
  let len_in := buf_in.length
  let len_out := (8 * len_in + 5) / 6
  let buf := packFold buf_in
  let stage2 := (List.range len_out).foldl
    (fun o i =>
      o.set i (tbl ((buf &&& ((63 <<< (3 * 6)) >>> (6 * i))) >>> (6 * (4 - i - 1))))) buf_out
  (List.range' len_out (4 - len_out)).foldl (fun o i => o.set i '=') stage2

/-- The initial output buffer of the driver, line 63:
char buf_out[4 + 1] = {0}. -/
def initBuf : List Char := List.replicate (4 + 1) nul

/-- Embedding of the loop nest of base64_encode (lines 65-83).  The second
argument counts the reads remaining in the current line (19 at the start of
each outer pass, i.e. k here corresponds to 19 - i in the C for loop).
  - k = 0: the inner for loop has finished 19 blocks; fprintf CRLF and run
    the next outer pass;
  - input empty: fread returns 0, eof is set, the inner loop breaks, the
    CRLF after the loop is printed, and the outer while exits;
  - otherwise: fread yields take 3, base64_encode_block fills the buffer, and
    fprintf("%s") appends its NUL-terminated contents to the sink. -/
def encodeAux : List Nat → Nat → List Char → List Char
  | bs, 0, buf => '\r' :: '\n' :: encodeAux bs 19 buf
  | [], _ + 1, _ => ['\r', '\n']
  | b :: bs, k + 1, buf =>
    let buf2 := base64_encode_block buf ((b :: bs).take 3)
    cString buf2 ++ encodeAux ((b :: bs).drop 3) k buf2
termination_by bs k _ => (bs.length, 20 - k)
decreasing_by
  · apply Prod.Lex.right
    omega
  · apply Prod.Lex.left
    simp only [List.length_drop, List.length_cons]
    omega

/-- Embedding of base64_encode (lines 60-84): run the loop nest on the given
input stream with a fresh zeroed buffer.  feof is false on a freshly opened
stream, so the outer while body always runs at least once. -/
def base64_encode (input : List Nat) : List Char := encodeAux input 19 initBuf

/-! Pure restatements of the two operations, used as proof intermediaries:
`encBlock` is the 4-character content that base64_encode_block leaves in
positions 0..3 of the buffer, and `encodeAuxP` is the driver with the buffer
threading removed.  Both are proved equivalent to the embeddings above. -/

/-- The four characters that base64_encode_block stores at positions 0..3:
len_out table symbols followed by (4 - len_out) pad characters. -/
def encBlock (blk : List Nat) : List Char :=
  let len_out := (8 * blk.length + 5) / 6
  let buf := packFold blk
  ((List.range len_out).map
    (fun i => tbl ((buf &&& ((63 <<< (3 * 6)) >>> (6 * i))) >>> (6 * (4 - i - 1)))))
    ++ List.replicate (4 - len_out) '='

/-- Concatenation of the encoded blocks of a stream, 3 input bytes per
block, with no line breaks. -/
def encConcat : List Nat → List Char
  | [] => []
  | [b0] => encBlock [b0]
  | [b0, b1] => encBlock [b0, b1]
  | b0 :: b1 :: b2 :: rest => encBlock [b0, b1, b2] ++ encConcat rest

/-- The driver loop with the character buffer threading removed: each block
contributes exactly its four characters. -/
def encodeAuxP : List Nat → Nat → List Char
  | bs, 0 => '\r' :: '\n' :: encodeAuxP bs 19
  | [], _ + 1 => ['\r', '\n']
  | b :: bs, k + 1 => encBlock ((b :: bs).take 3) ++ encodeAuxP ((b :: bs).drop 3) k
termination_by bs k => (bs.length, 20 - k)
decreasing_by
  · apply Prod.Lex.right
    omega
  · apply Prod.Lex.left
    simp only [List.length_drop, List.length_cons]
    omega

/-! Basic facts about the symbol table. -/

theorem base64_table_length : base64_table.length = 64 := by decide

theorem table_chars :
    ∀ c ∈ base64_table, c ≠ nul ∧ c ≠ '\r' ∧ c ≠ '\n' ∧ c ≠ '=' := by decide

theorem pad_not_mem_table : '=' ∉ base64_table := by decide

theorem tbl_mem_aux : ∀ v < 64, tbl v ∈ base64_table := by decide

theorem tbl_mem (v : Nat) (hv : v < 64) : tbl v ∈ base64_table := tbl_mem_aux v hv

theorem tbl_ne_nul (v : Nat) : tbl v ≠ nul := by
  by_cases hv : v < 64
  · exact (table_chars _ (tbl_mem v hv)).1
  · have : tbl v = '?' := by
      unfold tbl
      apply List.getD_eq_default
      rw [base64_table_length]
      omega
    rw [this]
    decide

/-! Bit-level arithmetic: the loop-carried mask of stage 2 extracts a 6-bit
group, i.e. a division and a remainder by powers of two. -/

theorem and_mask_shift (x s : Nat) : (x &&& (63 <<< s)) >>> s = (x >>> s) % 64 := by
  have h63 : (63 : Nat) = 2 ^ 6 - 1 := by norm_num
  have h64 : (64 : Nat) = 2 ^ 6 := by norm_num
  apply Nat.eq_of_testBit_eq
  intro i
  rw [h63, h64]
  simp only [Nat.testBit_shiftRight, Nat.testBit_and, Nat.testBit_shiftLeft,
    Nat.testBit_mod_two_pow, Nat.testBit_two_pow_sub_one]
  have hs : decide (s ≤ s + i) = true := by simp
  have hd : s + i - s = i := by omega
  rw [hs, hd]
  rw [Bool.and_comm (decide (i < 6))]
  simp [Bool.and_assoc]

theorem mask18 (x : Nat) : (x &&& 16515072) >>> 18 = x / 262144 % 64 := by
  have h : (16515072 : Nat) = 63 <<< 18 := by rw [Nat.shiftLeft_eq]
  rw [h, and_mask_shift, Nat.shiftRight_eq_div_pow]

theorem mask12 (x : Nat) : (x &&& 258048) >>> 12 = x / 4096 % 64 := by
  have h : (258048 : Nat) = 63 <<< 12 := by rw [Nat.shiftLeft_eq]
  rw [h, and_mask_shift, Nat.shiftRight_eq_div_pow]

theorem mask6 (x : Nat) : (x &&& 4032) >>> 6 = x / 64 % 64 := by
  have h : (4032 : Nat) = 63 <<< 6 := by rw [Nat.shiftLeft_eq]
  rw [h, and_mask_shift, Nat.shiftRight_eq_div_pow]

theorem mask0 (x : Nat) : x &&& 63 = x % 64 := by
  have h : (63 : Nat) = 2 ^ 6 - 1 := by norm_num
  rw [h, Nat.and_pow_two_sub_one_eq_mod]

/-! Stage 1 (packing) as plain arithmetic: an OR of a shifted byte onto a
value whose low bits are free is an addition. -/

theorem lor_shift_add (a b n : Nat) (hb : b < 2 ^ n) :
    (a <<< n) ||| b = 2 ^ n * a + b := by
  rw [Nat.shiftLeft_eq, Nat.mul_comm]
  exact (Nat.mul_add_lt_is_or hb a).symm

theorem packFold_one (b0 : Nat) : packFold [b0] = b0 * 2 ^ 16 := by
  simp [packFold, List.range_succ, Nat.shiftLeft_eq]

theorem packFold_two (b0 b1 : Nat) (h1 : b1 < 256) :
    packFold [b0, b1] = b0 * 2 ^ 16 + b1 * 2 ^ 8 := by
  have e : packFold [b0, b1] = (b0 <<< 16) ||| (b1 <<< 8) := by
    simp [packFold, List.range_succ]
  have hlt : b1 <<< 8 < 2 ^ 16 := by
    rw [Nat.shiftLeft_eq]
    norm_num
    omega
  rw [e, lor_shift_add b0 (b1 <<< 8) 16 hlt, Nat.shiftLeft_eq]
  ring

theorem packFold_three (b0 b1 b2 : Nat) (h1 : b1 < 256) (h2 : b2 < 256) :
    packFold [b0, b1, b2] = b0 * 2 ^ 16 + b1 * 2 ^ 8 + b2 := by
  have e : packFold [b0, b1, b2] = ((b0 <<< 16) ||| (b1 <<< 8)) ||| b2 := by
    simp [packFold, List.range_succ]
  have hlt : 2 ^ 8 * b1 + b2 < 2 ^ 16 := by
    norm_num
    omega
  rw [e, Nat.lor_assoc, lor_shift_add b1 b2 8 (by omega),
    lor_shift_add b0 _ 16 hlt]
  ring

/-! Case analyses on list shapes. -/

theorem exists_five (l : List Char) (h : l.length = 5) :
    ∃ a0 a1 a2 a3 a4, l = [a0, a1, a2, a3, a4] := by
  rcases l with _ | ⟨a0, _ | ⟨a1, _ | ⟨a2, _ | ⟨a3, _ | ⟨a4, _ | ⟨a5, l⟩⟩⟩⟩⟩⟩ <;>
    simp only [List.length_cons, List.length_nil] at h <;> first
      | omega
      | exact ⟨a0, a1, a2, a3, a4, rfl⟩

theorem blk_cases (blk : List Nat) (h1 : 1 ≤ blk.length) (h3 : blk.length ≤ 3) :
    (∃ b0, blk = [b0]) ∨ (∃ b0 b1, blk = [b0, b1]) ∨
      (∃ b0 b1 b2, blk = [b0, b1, b2]) := by
  rcases blk with _ | ⟨b0, _ | ⟨b1, _ | ⟨b2, _ | ⟨b3, l⟩⟩⟩⟩
  · simp at h1
  · exact Or.inl ⟨b0, rfl⟩
  · exact Or.inr (Or.inl ⟨b0, b1, rfl⟩)
  · exact Or.inr (Or.inr ⟨b0, b1, b2, rfl⟩)
  · simp only [List.length_cons] at h3
    omega

/-! Closed forms of encBlock for each block length. -/

theorem encBlock_one (b0 : Nat) :
    encBlock [b0] =
      [tbl (packFold [b0] / 262144 % 64), tbl (packFold [b0] / 4096 % 64), '=', '='] := by
  simp [encBlock, List.range_succ, mask18, mask12, List.replicate]

theorem encBlock_two (b0 b1 : Nat) :
    encBlock [b0, b1] =
      [tbl (packFold [b0, b1] / 262144 % 64), tbl (packFold [b0, b1] / 4096 % 64),
       tbl (packFold [b0, b1] / 64 % 64), '='] := by
  simp [encBlock, List.range_succ, mask18, mask12, mask6, List.replicate]

theorem encBlock_three (b0 b1 b2 : Nat) :
    encBlock [b0, b1, b2] =
      [tbl (packFold [b0, b1, b2] / 262144 % 64), tbl (packFold [b0, b1, b2] / 4096 % 64),
       tbl (packFold [b0, b1, b2] / 64 % 64), tbl (packFold [b0, b1, b2] % 64)] := by
  simp [encBlock, List.range_succ, mask18, mask12, mask6, mask0, List.replicate]

theorem encBlock_length (blk : List Nat) (h1 : 1 ≤ blk.length) (h3 : blk.length ≤ 3) :
    (encBlock blk).length = 4 := by
  rcases blk_cases blk h1 h3 with ⟨b0, rfl⟩ | ⟨b0, b1, rfl⟩ | ⟨b0, b1, b2, rfl⟩ <;>
    simp [encBlock_one, encBlock_two, encBlock_three]

theorem encBlock_chars (blk : List Nat) (h1 : 1 ≤ blk.length) (h3 : blk.length ≤ 3) :
    ∀ c ∈ encBlock blk, c ∈ base64_table ∨ c = '=' := by
  have hm : ∀ x : Nat, tbl (x % 64) ∈ base64_table :=
    fun x => tbl_mem _ (Nat.mod_lt _ (by norm_num))
  rcases blk_cases blk h1 h3 with ⟨b0, rfl⟩ | ⟨b0, b1, rfl⟩ | ⟨b0, b1, b2, rfl⟩ <;>
    · intro c hc
      first
        | rw [encBlock_one] at hc
        | rw [encBlock_two] at hc
        | rw [encBlock_three] at hc
      simp only [List.mem_cons, List.not_mem_nil, or_false] at hc
      rcases hc with rfl | rfl | rfl | rfl <;> first
        | exact Or.inl (hm _)
        | exact Or.inr rfl

theorem encBlock_ne_nul (blk : List Nat) (h1 : 1 ≤ blk.length) (h3 : blk.length ≤ 3) :
    ∀ c ∈ encBlock blk, c ≠ nul := by
  intro c hc
  rcases encBlock_chars blk h1 h3 c hc with h | rfl
  · exact (table_chars c h).1
  · decide

theorem encBlock_no_crlf (blk : List Nat) (h1 : 1 ≤ blk.length) (h3 : blk.length ≤ 3) :
    ∀ c ∈ encBlock blk, c ≠ '\r' ∧ c ≠ '\n' := by
  intro c hc
  rcases encBlock_chars blk h1 h3 c hc with h | rfl
  · exact ⟨(table_chars c h).2.1, (table_chars c h).2.2.1⟩
  · exact ⟨by decide, by decide⟩

/-- The buffer-level block transform is the pure 4-character block followed by
the untouched tail of the buffer: base64_encode_block writes exactly the
positions 0..3. -/
theorem encode_block_eq (buf : List Char) (blk : List Nat)
    (h5 : buf.length = 5) (h1 : 1 ≤ blk.length) (h3 : blk.length ≤ 3) :
    base64_encode_block buf blk = encBlock blk ++ buf.drop 4 := by
  obtain ⟨a0, a1, a2, a3, a4, rfl⟩ := exists_five buf h5
  rcases blk_cases blk h1 h3 with ⟨b0, rfl⟩ | ⟨b0, b1, rfl⟩ | ⟨b0, b1, b2, rfl⟩ <;>
    simp [base64_encode_block, encBlock, List.range_succ, List.range']

/-- Printing a buffer whose first segment is NUL-free and whose next
character is NUL yields exactly that first segment. -/
theorem cString_append (x y : List Char) (hx : ∀ c ∈ x, c ≠ nul) :
    cString (x ++ nul :: y) = x := by
  induction x with
  | nil => simp [cString]
  | cons c x ih =>
    have hc : c ≠ nul := hx c (by simp)
    have ih2 := ih fun d hd => hx d (by simp [hd])
    simp [cString, hc] at ih2 ⊢
    exact ih2

theorem drop4_eq (buf : List Char) (h5 : buf.length = 5)
    (h4 : buf.getD 4 ' ' = nul) : buf.drop 4 = [nul] := by
  obtain ⟨a0, a1, a2, a3, a4, rfl⟩ := exists_five buf h5
  simp only [List.getD] at h4
  simp at h4
  simp [h4]

theorem exists_four (l : List Char) (h : l.length = 4) :
    ∃ a0 a1 a2 a3, l = [a0, a1, a2, a3] := by
  rcases l with _ | ⟨a0, _ | ⟨a1, _ | ⟨a2, _ | ⟨a3, _ | ⟨a4, l⟩⟩⟩⟩⟩ <;>
    simp only [List.length_cons, List.length_nil] at h <;> first
      | omega
      | exact ⟨a0, a1, a2, a3, rfl⟩

theorem exists_three_cons (bs : List Nat) (h : 3 ≤ bs.length) :
    ∃ b0 b1 b2 rest, bs = b0 :: b1 :: b2 :: rest := by
  rcases bs with _ | ⟨b0, _ | ⟨b1, _ | ⟨b2, rest⟩⟩⟩ <;>
    simp only [List.length_cons, List.length_nil] at h <;> first
      | omega
      | exact ⟨b0, b1, b2, rest, rfl⟩

theorem take3_len_lower (b : Nat) (bs : List Nat) : 1 ≤ ((b :: bs).take 3).length := by
  simp [List.length_take]

theorem take3_len_upper (b : Nat) (bs : List Nat) : ((b :: bs).take 3).length ≤ 3 := by
  simp [List.length_take]

/-- The driver loop equals its buffer-free restatement: the buffer always
holds five characters with a NUL at position 4, so each fprintf("%s", buf)
emits exactly the four characters of the current block. -/
theorem encodeAux_eq_pure (bs : List Nat) (k : Nat) (buf : List Char)
    (h5 : buf.length = 5) (h4 : buf.getD 4 ' ' = nul) :
    encodeAux bs k buf = encodeAuxP bs k := by
  cases k with
  | zero =>
    simp only [encodeAux, encodeAuxP]
    rw [encodeAux_eq_pure bs 19 buf h5 h4]
  | succ k =>
    cases bs with
    | nil => simp only [encodeAux, encodeAuxP]
    | cons b bs =>
      simp only [encodeAux, encodeAuxP]
      have h1 := take3_len_lower b bs
      have h3 := take3_len_upper b bs
      rw [encode_block_eq buf _ h5 h1 h3, drop4_eq buf h5 h4]
      have hcs : cString (encBlock ((b :: bs).take 3) ++ [nul]) =
          encBlock ((b :: bs).take 3) :=
        cString_append _ [] (encBlock_ne_nul _ h1 h3)
      rw [hcs]
      have h5' : (encBlock ((b :: bs).take 3) ++ [nul]).length = 5 := by
        rw [List.length_append, encBlock_length _ h1 h3]
        rfl
      have h4' : (encBlock ((b :: bs).take 3) ++ [nul]).getD 4 ' ' = nul := by
        obtain ⟨c0, c1, c2, c3, he⟩ := exists_four _ (encBlock_length _ h1 h3)
        rw [he]
        rfl
      rw [encodeAux_eq_pure ((b :: bs).drop 3) k _ h5' h4']
termination_by (bs.length, 20 - k)
decreasing_by
  · apply Prod.Lex.right
    omega
  · apply Prod.Lex.left
    simp only [List.length_drop, List.length_cons]
    omega

/-- Draining pass: when the remaining input fits in the current line (at most
3*k bytes with k reads left), the loop emits all blocks, a CRLF, and — exactly
when the k reads were used up before end of stream was seen (more than
3*(k-1) bytes) — a second, stray CRLF from the extra outer pass. -/
theorem encodeAuxP_drain (k : Nat) (bs : List Nat) (hk : 1 ≤ k)
    (hlen : bs.length ≤ 3 * k) :
    encodeAuxP bs k =
      encConcat bs ++ '\r' :: '\n' ::
        (if 3 * (k - 1) < bs.length then ['\r', '\n'] else []) := by
  induction k generalizing bs with
  | zero => omega
  | succ k ih =>
    rcases bs with _ | ⟨b0, _ | ⟨b1, _ | ⟨b2, rest⟩⟩⟩
    · rw [if_neg (by simp)]
      simp [encodeAuxP, encConcat]
    · cases k with
      | zero =>
        rw [if_pos (by simp only [List.length_cons, List.length_nil]; omega)]
        simp [encodeAuxP, encConcat]
      | succ k =>
        rw [if_neg (by simp only [List.length_cons, List.length_nil]; omega)]
        simp [encodeAuxP, encConcat]
    · cases k with
      | zero =>
        rw [if_pos (by simp only [List.length_cons, List.length_nil]; omega)]
        simp [encodeAuxP, encConcat]
      | succ k =>
        rw [if_neg (by simp only [List.length_cons, List.length_nil]; omega)]
        simp [encodeAuxP, encConcat]
    · simp only [List.length_cons] at hlen
      cases k with
      | zero =>
        have hr : rest = [] := by
          rw [← List.length_eq_zero]
          omega
        subst hr
        rw [if_pos (by simp)]
        simp [encodeAuxP, encConcat]
      | succ k =>
        have hrest : rest.length ≤ 3 * (k + 1) := by omega
        have t3 : List.take 3 (b0 :: b1 :: b2 :: rest) = [b0, b1, b2] := by simp
        have d3 : List.drop 3 (b0 :: b1 :: b2 :: rest) = rest := by simp
        simp only [encodeAuxP, t3, d3]
        rw [ih rest (by omega) hrest]
        simp only [encConcat, List.append_assoc, List.length_cons]
        by_cases hc : 3 * (k + 1 - 1) < rest.length
        · rw [if_pos hc, if_pos (by omega)]
        · rw [if_neg hc, if_neg (by omega)]

/-- Full pass: when more than 3*k bytes remain with k reads left in the line,
the loop emits exactly k blocks, a CRLF, and starts a fresh pass of 19 reads
on the rest. -/
theorem encodeAuxP_full (k : Nat) (bs : List Nat) (h : 3 * k < bs.length) :
    encodeAuxP bs k =
      encConcat (bs.take (3 * k)) ++ '\r' :: '\n' :: encodeAuxP (bs.drop (3 * k)) 19 := by
  induction k generalizing bs with
  | zero =>
    cases bs with
    | nil => simp at h
    | cons b bs => simp only [encodeAuxP, Nat.mul_zero, List.take_zero, List.drop_zero, encConcat,
        List.nil_append]
  | succ k ih =>
    obtain ⟨b0, b1, b2, rest, rfl⟩ := exists_three_cons bs (by omega)
    simp only [List.length_cons] at h
    have e : 3 * (k + 1) = 3 * k + 1 + 1 + 1 := by ring
    rw [e]
    simp only [List.take_succ_cons, List.drop_succ_cons]
    have t3 : List.take 3 (b0 :: b1 :: b2 :: rest) = [b0, b1, b2] := by simp
    have d3 : List.drop 3 (b0 :: b1 :: b2 :: rest) = rest := by simp
    simp only [encodeAuxP, t3, d3]
    rw [ih rest (by omega)]
    simp only [encConcat, List.append_assoc]

/-! The round-trip claim quantifies over an external reference decoder: the
standard Base64 decoding over the same alphabet with '=' padding, applied
after stripping the CRLF line breaks.  The decoder is not part of the C
program; the definitions below follow the claim's words. -/

/-- Reference CRLF stripping: remove every "\r\n" pair from the text. -/
def stripCRLF : List Char → List Char
  | [] => []
  | [c] => [c]
  | c0 :: c1 :: rest =>
    if c0 = '\r' ∧ c1 = '\n' then stripCRLF rest
    else c0 :: stripCRLF (c1 :: rest)

/-- Reference decoder, symbol value: the index of a character in the Base64
alphabet. -/
def decodeSym (c : Char) : Nat := base64_table.indexOf c

/-- Reference decoder, one 4-character group: 2, 3 or 4 symbols according to
the '=' padding, reassembled into 1, 2 or 3 bytes. -/
def decodeBlock4 (c0 c1 c2 c3 : Char) : List Nat :=
  let v0 := decodeSym c0
  let v1 := decodeSym c1
  let v2 := decodeSym c2
  let v3 := decodeSym c3
  if c2 = '=' then [v0 * 4 + v1 / 16]
  else if c3 = '=' then [v0 * 4 + v1 / 16, v1 % 16 * 16 + v2 / 4]
  else [v0 * 4 + v1 / 16, v1 % 16 * 16 + v2 / 4, v2 % 4 * 64 + v3]

/-- Reference decoder: decode the text 4 characters at a time. -/
def base64_decode : List Char → List Nat
  | c0 :: c1 :: c2 :: c3 :: rest => decodeBlock4 c0 c1 c2 c3 ++ base64_decode rest
  | _ => []

theorem tbl_indexOf : ∀ v < 64, base64_table.indexOf (tbl v) = v := by decide

theorem tbl_ne_pad (x : Nat) : tbl (x % 64) ≠ '=' := by
  intro h
  exact pad_not_mem_table (h ▸ tbl_mem _ (Nat.mod_lt _ (by norm_num)))

theorem decodeSym_tbl (x : Nat) : decodeSym (tbl (x % 64)) = x % 64 :=
  tbl_indexOf _ (Nat.mod_lt _ (by norm_num))

/-! Per-block round trips.  The bytes are recovered from the 6-bit groups by
the divisions and remainders of the reference decoder. -/

theorem decode_encBlock_three (b0 b1 b2 : Nat) (h0 : b0 < 256) (h1 : b1 < 256)
    (h2 : b2 < 256) (rest : List Char) :
    base64_decode (encBlock [b0, b1, b2] ++ rest) = b0 :: b1 :: b2 :: base64_decode rest := by
  rw [encBlock_three, packFold_three b0 b1 b2 h1 h2]
  simp only [List.cons_append, List.nil_append, base64_decode, decodeBlock4]
  rw [if_neg (tbl_ne_pad _), if_neg (tbl_ne_pad _)]
  simp only [decodeSym_tbl, List.cons_append, List.cons.injEq, and_true]
  norm_num
  refine ⟨by omega, by omega, by omega⟩

theorem decode_encBlock_two (b0 b1 : Nat) (h0 : b0 < 256) (h1 : b1 < 256)
    (rest : List Char) :
    base64_decode (encBlock [b0, b1] ++ rest) = b0 :: b1 :: base64_decode rest := by
  rw [encBlock_two, packFold_two b0 b1 h1]
  simp only [List.cons_append, List.nil_append, base64_decode, decodeBlock4]
  rw [if_neg (tbl_ne_pad _)]
  simp only [if_true, decodeSym_tbl, List.cons_append, List.cons.injEq, and_true,
    List.nil_append]
  norm_num
  refine ⟨by omega, by omega⟩

theorem decode_encBlock_one (b0 : Nat) (h0 : b0 < 256) (rest : List Char) :
    base64_decode (encBlock [b0] ++ rest) = b0 :: base64_decode rest := by
  rw [encBlock_one, packFold_one b0]
  simp only [List.cons_append, List.nil_append, base64_decode, decodeBlock4]
  simp only [if_true, decodeSym_tbl, List.cons_append, List.cons.injEq, and_true,
    List.nil_append]
  norm_num
  omega

/-- Decoding the block concatenation of a byte stream recovers the stream,
whatever follows: each block contributes exactly 4 characters. -/
theorem decode_encConcat (bs : List Nat) (hb : ∀ b ∈ bs, b < 256) (rest : List Char) :
    base64_decode (encConcat bs ++ rest) = bs ++ base64_decode rest := by
  rcases bs with _ | ⟨b0, _ | ⟨b1, _ | ⟨b2, tl⟩⟩⟩
  · simp [encConcat]
  · simp only [encConcat]
    rw [decode_encBlock_one b0 (hb b0 (by simp))]
    rfl
  · simp only [encConcat]
    rw [decode_encBlock_two b0 b1 (hb b0 (by simp)) (hb b1 (by simp))]
    rfl
  · simp only [encConcat, List.append_assoc]
    rw [decode_encBlock_three b0 b1 b2 (hb b0 (by simp)) (hb b1 (by simp)) (hb b2 (by simp))]
    rw [decode_encConcat tl (fun b hbm => hb b (by simp [hbm]))]
    simp

/-- Characters of the encoded blocks are never CR or LF. -/
theorem encConcat_no_crlf (bs : List Nat) :
    ∀ c ∈ encConcat bs, c ≠ '\r' ∧ c ≠ '\n' := by
  rcases bs with _ | ⟨b0, _ | ⟨b1, _ | ⟨b2, tl⟩⟩⟩
  · simp [encConcat]
  · exact fun c hc => encBlock_no_crlf [b0] (by simp) (by simp) c hc
  · exact fun c hc => encBlock_no_crlf [b0, b1] (by simp) (by simp) c hc
  · intro c hc
    simp only [encConcat, List.mem_append] at hc
    rcases hc with hc | hc
    · exact encBlock_no_crlf [b0, b1, b2] (by simp) (by simp) c hc
    · exact encConcat_no_crlf tl c hc

/-- Stripping distributes over a CR-free block of text. -/
theorem stripCRLF_append (x y : List Char) (hx : ∀ c ∈ x, c ≠ '\r') :
    stripCRLF (x ++ y) = x ++ stripCRLF y := by
  rcases x with _ | ⟨c0, _ | ⟨c1, x'⟩⟩
  · simp
  · have hc : c0 ≠ '\r' := hx c0 (by simp)
    rcases y with _ | ⟨d, y'⟩
    · simp [stripCRLF]
    · simp only [List.cons_append, List.nil_append, stripCRLF]
      rw [if_neg (by simp [hc])]
  · have hc : c0 ≠ '\r' := hx c0 (by simp)
    simp only [List.cons_append, stripCRLF]
    rw [if_neg (by simp [hc])]
    have ihr := stripCRLF_append (c1 :: x') y (fun c hcm => hx c (List.mem_cons_of_mem c0 hcm))
    simp only [List.append_eq, List.cons_append] at ihr ⊢
    rw [ihr]

theorem stripCRLF_crlf (z : List Char) :
    stripCRLF ('\r' :: '\n' :: z) = stripCRLF z := by
  simp [stripCRLF]

theorem encConcat_length (bs : List Nat) :
    (encConcat bs).length = 4 * ((bs.length + 2) / 3) := by
  rcases bs with _ | ⟨b0, _ | ⟨b1, _ | ⟨b2, tl⟩⟩⟩
  · simp [encConcat]
  · simp [encConcat, encBlock_one]
  · simp [encConcat, encBlock_two]
  · simp only [encConcat, List.length_append, encBlock_three, List.length_cons,
      List.length_nil]
    rw [encConcat_length tl]
    omega

/-- Round trip at the loop level, by strong induction over 57-byte lines. -/
theorem decode_strip_encodeAuxP (bs : List Nat) (hb : ∀ b ∈ bs, b < 256) :
    base64_decode (stripCRLF (encodeAuxP bs 19)) = bs := by
  by_cases h : bs.length ≤ 57
  · rw [encodeAuxP_drain 19 bs (by omega) (by omega)]
    rw [stripCRLF_append _ _ (fun c hc => (encConcat_no_crlf bs c hc).1)]
    rw [stripCRLF_crlf]
    have hz : stripCRLF (if 3 * (19 - 1) < bs.length then ['\r', '\n'] else []) = [] := by
      by_cases hc : 3 * (19 - 1) < bs.length
      · rw [if_pos hc]
        decide
      · rw [if_neg hc]
        decide
    rw [hz]
    have hd := decode_encConcat bs hb []
    simpa [base64_decode] using hd
  · rw [encodeAuxP_full 19 bs (by omega)]
    rw [stripCRLF_append _ _ (fun c hc => (encConcat_no_crlf _ c hc).1)]
    rw [stripCRLF_crlf]
    rw [decode_encConcat _ (fun b hbm => hb b (List.take_subset _ _ hbm)) _]
    rw [decode_strip_encodeAuxP (bs.drop (3 * 19)) (fun b hbm => hb b (List.drop_subset _ _ hbm))]
    exact List.take_append_drop _ bs
termination_by bs.length
decreasing_by
  simp only [List.length_drop]
  omega

theorem initBuf_len : initBuf.length = 5 := rfl

theorem initBuf_nul : initBuf.getD 4 ' ' = nul := rfl

/-- Relational embedding of the driver loop: Encodes bs k buf out holds when
a run of the loop nest on input bs, with k reads left in the current line and
output buffer buf, can emit the text out.  One constructor per case of the
loop, mirroring encodeAux. -/
inductive Encodes : List Nat → Nat → List Char → List Char → Prop
  | eof (k : Nat) (buf : List Char) : Encodes [] (k + 1) buf ['\r', '\n']
  | line (bs : List Nat) (buf out : List Char) :
      Encodes bs 19 buf out → Encodes bs 0 buf ('\r' :: '\n' :: out)
  | block (b : Nat) (bs : List Nat) (k : Nat) (buf out : List Char) :
      Encodes ((b :: bs).drop 3) k (base64_encode_block buf ((b :: bs).take 3)) out →
      Encodes (b :: bs) (k + 1) buf
        (cString (base64_encode_block buf ((b :: bs).take 3)) ++ out)

/-- The loop relation is a function of its inputs. -/
theorem encodes_det (bs : List Nat) (k : Nat) (buf o1 o2 : List Char)
    (h1 : Encodes bs k buf o1) (h2 : Encodes bs k buf o2) : o1 = o2 := by
  induction h1 generalizing o2 with
  | eof k buf =>
    cases h2
    rfl
  | line bs buf out h ih =>
    cases h2 with
    | line _ _ out2 h2x => rw [ih _ h2x]
  | block b bs k buf out h ih =>
    cases h2 with
    | block _ _ _ _ out2 h2x => rw [ih _ h2x]

/-- The loop relation holds of the run the driver actually performs. -/
theorem encodes_total (bs : List Nat) (k : Nat) (buf : List Char) :
    Encodes bs k buf (encodeAux bs k buf) := by
  cases k with
  | zero =>
    rw [show encodeAux bs 0 buf = '\r' :: '\n' :: encodeAux bs 19 buf from by
      simp only [encodeAux]]
    exact Encodes.line bs buf _ (encodes_total bs 19 buf)
  | succ k =>
    cases bs with
    | nil =>
      rw [show encodeAux [] (k + 1) buf = ['\r', '\n'] from by simp only [encodeAux]]
      exact Encodes.eof k buf
    | cons b bs =>
      rw [show encodeAux (b :: bs) (k + 1) buf =
          cString (base64_encode_block buf ((b :: bs).take 3)) ++
            encodeAux ((b :: bs).drop 3) k (base64_encode_block buf ((b :: bs).take 3)) from by
        simp only [encodeAux]]
      exact Encodes.block b bs k buf _ (encodes_total ((b :: bs).drop 3) k _)
termination_by (bs.length, 20 - k)
decreasing_by
  · apply Prod.Lex.right
    omega
  · apply Prod.Lex.left
    simp only [List.length_drop, List.length_cons]
    omega

/-- Splitting the block characters into the symbol part and the padding. -/
theorem encBlock_split (blk : List Nat) (h1 : 1 ≤ blk.length) (h3 : blk.length ≤ 3) :
    ∃ syms : List Char,
      encBlock blk = syms ++ List.replicate (4 - (8 * blk.length + 5) / 6) '=' ∧
      syms.length = (8 * blk.length + 5) / 6 ∧
      ∀ c ∈ syms, c ∈ base64_table := by
  have hm : ∀ x : Nat, tbl (x % 64) ∈ base64_table :=
    fun x => tbl_mem _ (Nat.mod_lt _ (by norm_num))
  rcases blk_cases blk h1 h3 with ⟨b0, rfl⟩ | ⟨b0, b1, rfl⟩ | ⟨b0, b1, b2, rfl⟩
  · refine ⟨[tbl (packFold [b0] / 262144 % 64), tbl (packFold [b0] / 4096 % 64)],
      by rw [encBlock_one]; simp [List.replicate], by simp, ?_⟩
    intro c hc
    simp only [List.mem_cons, List.not_mem_nil, or_false] at hc
    rcases hc with rfl | rfl <;> exact hm _
  · refine ⟨[tbl (packFold [b0, b1] / 262144 % 64), tbl (packFold [b0, b1] / 4096 % 64),
      tbl (packFold [b0, b1] / 64 % 64)],
      by rw [encBlock_two]; simp [List.replicate], by simp, ?_⟩
    intro c hc
    simp only [List.mem_cons, List.not_mem_nil, or_false] at hc
    rcases hc with rfl | rfl | rfl <;> exact hm _
  · refine ⟨[tbl (packFold [b0, b1, b2] / 262144 % 64), tbl (packFold [b0, b1, b2] / 4096 % 64),
      tbl (packFold [b0, b1, b2] / 64 % 64), tbl (packFold [b0, b1, b2] % 64)],
      by rw [encBlock_three]; simp [List.replicate], by simp, ?_⟩
    intro c hc
    simp only [List.mem_cons, List.not_mem_nil, or_false] at hc
    rcases hc with rfl | rfl | rfl | rfl <;> exact hm _

theorem count_pad (syms : List Char) (hs : ∀ c ∈ syms, c ∈ base64_table) (n : Nat) :
    (syms ++ List.replicate n '=').count '=' = n := by
  rw [List.count_append]
  have h0 : syms.count '=' = 0 :=
    List.count_eq_zero.mpr (fun hmem => pad_not_mem_table (hs _ hmem))
  rw [h0, List.count_replicate_self]
  omega

/-- The first four characters of the buffer after base64_encode_block are
the pure block. -/
theorem encode_block_take4 (buf : List Char) (blk : List Nat)
    (h5 : buf.length = 5) (h1 : 1 ≤ blk.length) (h3 : blk.length ≤ 3) :
    (base64_encode_block buf blk).take 4 = encBlock blk := by
  rw [encode_block_eq buf blk h5 h1 h3,
    show (4 : Nat) = (encBlock blk).length from (encBlock_length blk h1 h3).symm,
    List.take_left]

/-- Line decomposition of the loop output: the text is a sequence of
CRLF-terminated lines, none longer than 76 characters and free of internal
CR and LF, and every line but the last is exactly 76 characters. -/
theorem lines_aux (bs : List Nat) :
    ∃ lines : List (List Char),
      encodeAuxP bs 19 = (lines.map (fun l => l ++ ['\r', '\n'])).flatten ∧
      (∀ l ∈ lines, l.length ≤ 76 ∧ '\r' ∉ l ∧ '\n' ∉ l) ∧
      (∀ i, i + 1 < lines.length → (lines.getD i []).length = 76) := by
  by_cases h : bs.length ≤ 57
  · rw [encodeAuxP_drain 19 bs (by omega) (by omega)]
    by_cases h54 : 3 * (19 - 1) < bs.length
    · rw [if_pos h54]
      refine ⟨[encConcat bs, []], ?_, ?_, ?_⟩
      · simp [List.append_assoc]
      · intro l hl
        simp only [List.mem_cons, List.not_mem_nil, or_false] at hl
        rcases hl with rfl | rfl
        · exact ⟨by rw [encConcat_length]; omega,
            fun hc => (encConcat_no_crlf bs _ hc).1 rfl,
            fun hc => (encConcat_no_crlf bs _ hc).2 rfl⟩
        · simp
      · intro i hi
        simp only [List.length_cons, List.length_nil] at hi
        have hz : i = 0 := by omega
        subst hz
        simp only [List.getD_cons_zero]
        rw [encConcat_length]
        omega
    · rw [if_neg h54]
      refine ⟨[encConcat bs], ?_, ?_, ?_⟩
      · simp
      · intro l hl
        simp only [List.mem_cons, List.not_mem_nil, or_false] at hl
        subst hl
        exact ⟨by rw [encConcat_length]; omega,
          fun hc => (encConcat_no_crlf bs _ hc).1 rfl,
          fun hc => (encConcat_no_crlf bs _ hc).2 rfl⟩
      · intro i hi
        simp at hi
  · rw [encodeAuxP_full 19 bs (by omega)]
    obtain ⟨lines, hj, hall, hfull⟩ := lines_aux (bs.drop (3 * 19))
    refine ⟨encConcat (bs.take (3 * 19)) :: lines, ?_, ?_, ?_⟩
    · rw [hj]
      simp [List.append_assoc]
    · intro l hl
      rcases List.mem_cons.mp hl with rfl | hl
      · refine ⟨?_, fun hc => (encConcat_no_crlf _ _ hc).1 rfl,
          fun hc => (encConcat_no_crlf _ _ hc).2 rfl⟩
        rw [encConcat_length, List.length_take]
        omega
      · exact hall l hl
    · intro i hi
      cases i with
      | zero =>
        simp only [List.getD_cons_zero]
        rw [encConcat_length, List.length_take]
        omega
      | succ j =>
        simp only [List.getD_cons_succ]
        apply hfull
        simpa using hi
termination_by bs.length
decreasing_by
  simp only [List.length_drop]
  omega

/-- Concrete run: 57 zero bytes encode to 76 of the character for value 0
followed by two CRLFs. -/
theorem encode_57_zeros :
    base64_encode (List.replicate 57 0) = List.replicate 76 'A' ++ ['\r', '\n', '\r', '\n'] := by
  rw [base64_encode, encodeAux_eq_pure _ _ _ initBuf_len initBuf_nul]
  rw [encodeAuxP_drain 19 _ (by omega) (by simp)]
  rw [if_pos (by simp)]
  have he : encConcat (List.replicate 57 0) = List.replicate 76 'A' := by decide
  rw [he]

theorem idx_facts (y : Nat) :
    y % 64 ≤ 63 ∧ y % 64 < base64_table.length ∧ tbl (y % 64) ∈ base64_table :=
  ⟨by omega, by rw [base64_table_length]; omega, tbl_mem _ (by omega)⟩

/-! Claim theorems. -/

/-- Claim C1, counterexample.  The claim states that on a 57-byte input the
encoder writes exactly 76 characters followed by one CRLF with nothing after
it; on the 57-byte all-zero input the encoder emits a second trailing CRLF
(80 characters in total instead of 78), so no such decomposition exists. -/
theorem claim_C1_counterexample :
    ¬ ∃ s : List Char, base64_encode (List.replicate 57 0) = s ++ ['\r', '\n'] ∧
      s.length = 76 ∧ '\r' ∉ s ∧ '\n' ∉ s := by
  rintro ⟨s, heq, hlen, -, -⟩
  have h80 : (base64_encode (List.replicate 57 0)).length = 80 := by
    rw [encode_57_zeros]
    simp
  rw [heq] at h80
  simp only [List.length_append, hlen, List.length_cons, List.length_nil] at h80
  omega

/-- Claim C1, amended.  For every 57-byte input (19 full 3-byte blocks) the
encoder writes exactly 76 characters with no line break inside, followed by
one CRLF, followed by one additional stray CRLF from the final outer pass,
and nothing after that. -/
theorem claim_C1 (bs : List Nat) (hlen : bs.length = 57) :
    ∃ s : List Char, base64_encode bs = s ++ ['\r', '\n', '\r', '\n'] ∧
      s.length = 76 ∧ '\r' ∉ s ∧ '\n' ∉ s := by
  refine ⟨encConcat bs, ?_, ?_, ?_, ?_⟩
  · rw [base64_encode, encodeAux_eq_pure _ _ _ initBuf_len initBuf_nul,
      encodeAuxP_drain 19 bs (by omega) (by omega), if_pos (by omega)]
  · rw [encConcat_length, hlen]
  · exact fun hc => (encConcat_no_crlf bs _ hc).1 rfl
  · exact fun hc => (encConcat_no_crlf bs _ hc).2 rfl

/-- Witness for the amended claim C1 at the all-zero 57-byte input. -/
theorem claim_C1_witness :
    ∃ s : List Char, base64_encode (List.replicate 57 0) = s ++ ['\r', '\n', '\r', '\n'] ∧
      s.length = 76 ∧ '\r' ∉ s ∧ '\n' ∉ s :=
  claim_C1 (List.replicate 57 0) (by simp)

/-- Claim C3.  For every byte sequence, stripping the CRLF pairs from the
encoder's output and applying the reference Base64 decoder reproduces the
input exactly. -/
theorem claim_C3 (input : List Nat) (hb : ∀ b ∈ input, b < 256) :
    base64_decode (stripCRLF (base64_encode input)) = input := by
  rw [base64_encode, encodeAux_eq_pure _ _ _ initBuf_len initBuf_nul]
  exact decode_strip_encodeAuxP input hb

/-- Witness for claim C3 on the bytes of "Man" plus a byte 255. -/
theorem claim_C3_witness :
    base64_decode (stripCRLF (base64_encode [77, 97, 110, 255])) = [77, 97, 110, 255] :=
  claim_C3 [77, 97, 110, 255] (by decide)

/-- Claim C5.  The output of base64_encode is a sequence of CRLF-terminated
lines; no line exceeds 76 characters (19 blocks) or contains CR or LF, and
every line except the last holds exactly 76 characters, i.e. a CRLF is
written after every 19 blocks and the per-line counter resets. -/
theorem claim_C5 (input : List Nat) :
    ∃ lines : List (List Char),
      base64_encode input = (lines.map (fun l => l ++ ['\r', '\n'])).flatten ∧
      (∀ l ∈ lines, l.length ≤ 76 ∧ '\r' ∉ l ∧ '\n' ∉ l) ∧
      (∀ i, i + 1 < lines.length → (lines.getD i []).length = 76) := by
  rw [base64_encode, encodeAux_eq_pure _ _ _ initBuf_len initBuf_nul]
  exact lines_aux input

/-- Claim C6.  On empty input the driver raises no error and writes exactly
one CRLF and no encoded symbols. -/
theorem claim_C6 : base64_encode [] = ['\r', '\n'] := by
  rw [base64_encode, encodeAux_eq_pure _ _ _ initBuf_len initBuf_nul,
    encodeAuxP_drain 19 [] (by omega) (by simp), if_neg (by simp)]
  rfl

/-- Claim C7.  Concrete vectors: "Man" encodes to "TWFu", "Ma" to "TWE=",
and "M" to "TQ==" (output of fprintf("%s") after base64_encode_block on a
fresh driver buffer). -/
theorem claim_C7 :
    cString (base64_encode_block initBuf [0x4D, 0x61, 0x6E]) = ['T', 'W', 'F', 'u'] ∧
    cString (base64_encode_block initBuf [0x4D, 0x61]) = ['T', 'W', 'E', '='] ∧
    cString (base64_encode_block initBuf [0x4D]) = ['T', 'Q', '=', '='] := by
  decide

/-- Claim C8.  Encoding is deterministic: any two runs of the driver loop on
the same input stream emit the same output. -/
theorem claim_C8 (input : List Nat) (o1 o2 : List Char)
    (h1 : Encodes input 19 initBuf o1) (h2 : Encodes input 19 initBuf o2) : o1 = o2 :=
  encodes_det input 19 initBuf o1 o2 h1 h2

/-- Witness for claim C8: two runs on the empty stream. -/
theorem claim_C8_witness : (['\r', '\n'] : List Char) = ['\r', '\n'] :=
  claim_C8 [] ['\r', '\n'] ['\r', '\n'] (Encodes.eof 18 initBuf) (Encodes.eof 18 initBuf)

/-- Claim C10.  base64_encode_block writes only positions 0..3 of the output
buffer: the buffer keeps its length, everything from position 4 on — in the
driver, the NUL terminator set at initialization — is unchanged, and when
position 4 holds NUL the string printed by fprintf("%s") is exactly the 4
characters of the block.  (The input buffer is untouched by construction in
this functional embedding.) -/
theorem claim_C10 (buf : List Char) (blk : List Nat) (h5 : buf.length = 5)
    (h1 : 1 ≤ blk.length) (h3 : blk.length ≤ 3) :
    (base64_encode_block buf blk).length = 5 ∧
    (base64_encode_block buf blk).drop 4 = buf.drop 4 ∧
    (buf.getD 4 ' ' = nul →
      cString (base64_encode_block buf blk) = (base64_encode_block buf blk).take 4 ∧
      (cString (base64_encode_block buf blk)).length = 4) := by
  have he := encode_block_eq buf blk h5 h1 h3
  have hl := encBlock_length blk h1 h3
  refine ⟨?_, ?_, ?_⟩
  · rw [he, List.length_append, hl, List.length_drop, h5]
  · rw [he, show (4 : Nat) = (encBlock blk).length from hl.symm, List.drop_left]
  · intro h4
    have hd := drop4_eq buf h5 h4
    have hcs : cString (base64_encode_block buf blk) = encBlock blk := by
      rw [he, hd]
      exact cString_append _ _ (encBlock_ne_nul blk h1 h3)
    constructor
    · rw [hcs, encode_block_take4 buf blk h5 h1 h3]
    · rw [hcs, hl]

/-- Witness for claim C10 at the driver's fresh buffer and the block [77]. -/
theorem claim_C10_witness :
    (base64_encode_block initBuf [77]).length = 5 ∧
    (base64_encode_block initBuf [77]).drop 4 = initBuf.drop 4 ∧
    (initBuf.getD 4 ' ' = nul →
      cString (base64_encode_block initBuf [77]) = (base64_encode_block initBuf [77]).take 4 ∧
      (cString (base64_encode_block initBuf [77])).length = 4) :=
  claim_C10 initBuf [77] (by decide) (by decide) (by decide)

/-- Claim C2.  On every block of 1 to 3 bytes, base64_encode_block writes
exactly 4 characters: the first len_out = (8*len_in+5)/6 (2, 3 or 4 for
len_in 1, 2, 3) are symbols of the 64-entry table and the remaining
4 - len_out are the padding character '=' (so two '=' for length 1, one for
length 2, none for length 3). -/
theorem claim_C2 (buf : List Char) (blk : List Nat) (h5 : buf.length = 5)
    (h1 : 1 ≤ blk.length) (h3 : blk.length ≤ 3) :
    ∃ syms : List Char,
      (base64_encode_block buf blk).take 4 =
        syms ++ List.replicate (4 - (8 * blk.length + 5) / 6) '=' ∧
      syms.length = (8 * blk.length + 5) / 6 ∧
      (∀ c ∈ syms, c ∈ base64_table) ∧
      (blk.length = 1 → (8 * blk.length + 5) / 6 = 2) ∧
      (blk.length = 2 → (8 * blk.length + 5) / 6 = 3) ∧
      (blk.length = 3 → (8 * blk.length + 5) / 6 = 4) ∧
      ((base64_encode_block buf blk).take 4).count '=' = 4 - (8 * blk.length + 5) / 6 := by
  obtain ⟨syms, hsp, hslen, hsmem⟩ := encBlock_split blk h1 h3
  have htake := encode_block_take4 buf blk h5 h1 h3
  refine ⟨syms, by rw [htake, hsp], hslen, hsmem, ?_, ?_, ?_, ?_⟩
  · intro hx
    rw [hx]
  · intro hx
    rw [hx]
  · intro hx
    rw [hx]
  · rw [htake, hsp]
    exact count_pad syms hsmem _

/-- Witness for claim C2 at the driver's fresh buffer and the block [77]. -/
theorem claim_C2_witness :
    ∃ syms : List Char,
      (base64_encode_block initBuf [77]).take 4 =
        syms ++ List.replicate (4 - (8 * ([77] : List Nat).length + 5) / 6) '=' ∧
      syms.length = (8 * ([77] : List Nat).length + 5) / 6 ∧
      (∀ c ∈ syms, c ∈ base64_table) ∧
      (([77] : List Nat).length = 1 → (8 * ([77] : List Nat).length + 5) / 6 = 2) ∧
      (([77] : List Nat).length = 2 → (8 * ([77] : List Nat).length + 5) / 6 = 3) ∧
      (([77] : List Nat).length = 3 → (8 * ([77] : List Nat).length + 5) / 6 = 4) ∧
      ((base64_encode_block initBuf [77]).take 4).count '=' =
        4 - (8 * ([77] : List Nat).length + 5) / 6 :=
  claim_C2 initBuf [77] (by decide) (by decide) (by decide)

/-- Claim C4.  Stage 1 packs the input bytes into the 24-bit value
b0*2^16 + b1*2^8 + b2 (absent trailing bytes are 0) using shifts and ORs,
and the i-th output symbol is the table entry for the i-th 6-bit group taken
from the most significant end of that value. -/
theorem claim_C4 (blk : List Nat) (h1 : 1 ≤ blk.length) (h3 : blk.length ≤ 3)
    (hb : ∀ b ∈ blk, b < 256) :
    packFold blk = blk.getD 0 0 * 2 ^ 16 + blk.getD 1 0 * 2 ^ 8 + blk.getD 2 0 ∧
    ∀ buf : List Char, buf.length = 5 → ∀ i, i < (8 * blk.length + 5) / 6 →
      (base64_encode_block buf blk).getD i '?' =
        base64_table.getD
          ((blk.getD 0 0 * 2 ^ 16 + blk.getD 1 0 * 2 ^ 8 + blk.getD 2 0) /
            2 ^ (6 * (3 - i)) % 64) '?' := by
  rcases blk_cases blk h1 h3 with ⟨b0, rfl⟩ | ⟨b0, b1, rfl⟩ | ⟨b0, b1, b2, rfl⟩
  · have hp : packFold [b0] = b0 * 2 ^ 16 := packFold_one b0
    refine ⟨by rw [hp]; simp, ?_⟩
    intro buf hbuf i hi
    have hi2 : i < 2 := by
      simp only [List.length_cons, List.length_nil] at hi
      omega
    rw [encode_block_eq buf _ hbuf (by simp) (by simp), encBlock_one]
    interval_cases i <;>
      simp only [List.cons_append, List.getD_cons_zero, List.getD_cons_succ, tbl,
        List.getD_nil] <;>
      rw [hp] <;> norm_num
  · have hp : packFold [b0, b1] = b0 * 2 ^ 16 + b1 * 2 ^ 8 :=
      packFold_two b0 b1 (hb b1 (by simp))
    refine ⟨by rw [hp]; simp, ?_⟩
    intro buf hbuf i hi
    have hi2 : i < 3 := by
      simp only [List.length_cons, List.length_nil] at hi
      omega
    rw [encode_block_eq buf _ hbuf (by simp) (by simp), encBlock_two]
    interval_cases i <;>
      simp only [List.cons_append, List.getD_cons_zero, List.getD_cons_succ, tbl,
        List.getD_nil] <;>
      rw [hp] <;> norm_num
  · have hp : packFold [b0, b1, b2] = b0 * 2 ^ 16 + b1 * 2 ^ 8 + b2 :=
      packFold_three b0 b1 b2 (hb b1 (by simp)) (hb b2 (by simp))
    refine ⟨by rw [hp]; simp, ?_⟩
    intro buf hbuf i hi
    have hi2 : i < 4 := by
      simp only [List.length_cons, List.length_nil] at hi
      omega
    rw [encode_block_eq buf _ hbuf (by simp) (by simp), encBlock_three]
    interval_cases i <;>
      simp only [List.cons_append, List.getD_cons_zero, List.getD_cons_succ, tbl,
        List.getD_nil] <;>
      rw [hp] <;> norm_num

/-- Witness for claim C4 at the block [77, 97]. -/
theorem claim_C4_witness :
    packFold [77, 97] =
      ([77, 97] : List Nat).getD 0 0 * 2 ^ 16 + ([77, 97] : List Nat).getD 1 0 * 2 ^ 8 +
        ([77, 97] : List Nat).getD 2 0 ∧
    ∀ buf : List Char, buf.length = 5 → ∀ i, i < (8 * ([77, 97] : List Nat).length + 5) / 6 →
      (base64_encode_block buf [77, 97]).getD i '?' =
        base64_table.getD
          ((([77, 97] : List Nat).getD 0 0 * 2 ^ 16 + ([77, 97] : List Nat).getD 1 0 * 2 ^ 8 +
            ([77, 97] : List Nat).getD 2 0) / 2 ^ (6 * (3 - i)) % 64) '?' :=
  claim_C4 [77, 97] (by decide) (by decide) (by decide)

/-- Claim C9.  Every table index computed by stage 2 of base64_encode_block —
the masked and shifted 6-bit group of the packed value — is at most 63, hence
strictly below the table length 64: C indexing is in bounds and the
embedding's out-of-range default is unreachable. -/
theorem claim_C9 (blk : List Nat) (h1 : 1 ≤ blk.length) (h3 : blk.length ≤ 3) :
    ∀ i, i < (8 * blk.length + 5) / 6 →
      (packFold blk &&& ((63 <<< (3 * 6)) >>> (6 * i))) >>> (6 * (4 - i - 1)) ≤ 63 ∧
      (packFold blk &&& ((63 <<< (3 * 6)) >>> (6 * i))) >>> (6 * (4 - i - 1)) <
        base64_table.length ∧
      tbl ((packFold blk &&& ((63 <<< (3 * 6)) >>> (6 * i))) >>> (6 * (4 - i - 1))) ∈
        base64_table := by
  intro i hi
  have hi4 : i < 4 := by omega
  interval_cases i
  · have e : (packFold blk &&& ((63 <<< (3 * 6)) >>> (6 * 0))) >>> (6 * (4 - 0 - 1)) =
        packFold blk / 262144 % 64 := by
      norm_num
      rw [show (63 <<< 18 : Nat) = 16515072 from by decide, mask18]
    rw [e]
    exact idx_facts _
  · have e : (packFold blk &&& ((63 <<< (3 * 6)) >>> (6 * 1))) >>> (6 * (4 - 1 - 1)) =
        packFold blk / 4096 % 64 := by
      norm_num
      rw [show ((63 <<< 18 : Nat) >>> 6) = 258048 from by decide, mask12]
    rw [e]
    exact idx_facts _
  · have e : (packFold blk &&& ((63 <<< (3 * 6)) >>> (6 * 2))) >>> (6 * (4 - 2 - 1)) =
        packFold blk / 64 % 64 := by
      norm_num
      rw [show ((63 <<< 18 : Nat) >>> 12) = 4032 from by decide, mask6]
    rw [e]
    exact idx_facts _
  · have e : (packFold blk &&& ((63 <<< (3 * 6)) >>> (6 * 3))) >>> (6 * (4 - 3 - 1)) =
        packFold blk % 64 := by
      norm_num
      exact mask0 _
    rw [e]
    exact idx_facts _

/-- Witness for claim C9 at the block [1, 2, 3] and index 0. -/
theorem claim_C9_witness :
    (packFold [1, 2, 3] &&& ((63 <<< (3 * 6)) >>> (6 * 0))) >>> (6 * (4 - 0 - 1)) ≤ 63 ∧
    (packFold [1, 2, 3] &&& ((63 <<< (3 * 6)) >>> (6 * 0))) >>> (6 * (4 - 0 - 1)) <
      base64_table.length ∧
    tbl ((packFold [1, 2, 3] &&& ((63 <<< (3 * 6)) >>> (6 * 0))) >>> (6 * (4 - 0 - 1))) ∈
      base64_table :=
  claim_C9 [1, 2, 3] (by decide) (by decide) 0 (by decide)

end Encoder
